import Mathlib

/-!
Shallow embedding of the `yul761/02-concurrency` repository's matrix library
(`src/matrix.rs`): the `Matrix<T>` data type, the `multiply` routine, and the
`Display` / `Debug` formatting implementations, together with proofs of the
specified properties.

Modelling conventions:
* Rust `usize` dimensions become `Nat`; the backing `Vec<T>` becomes `List T`.
* `Vec` indexing panics when out of bounds, so every code path that indexes is
  embedded in `Option` (`none` = panic).  `multiply` additionally has the
  dimension-mismatch error path, so its outcome is a three-way sum
  (`MulOutcome`): error, panic, or a result matrix.
* The trait bounds `Mul`, `Add`/`AddAssign` and `Default` on the element type
  become the instance arguments `[Mul T] [Add T] [Inhabited T]`;
  `T::default()` is `(default : T)` and `x += y` is `x + y` stored back.
* A Rust element type has two formatters, `fmt::Display` and `fmt::Debug`;
  they are modelled by the record `FmtType` with fields `disp` and `dbg`.
  The source's `Display` impl writes each element with the debug formatter
  (`write!(f, "{:?}", ...)`), so the embedding threads `ft.dbg`.
-/

namespace RustMatrix

/-- The `Matrix<T>` struct of `src/matrix.rs`: row and column counts and a
row-major flat data buffer. -/
structure Matrix (T : Type) where
  rows : Nat
  cols : Nat
  data : List T
deriving Repr, DecidableEq

/-- The constructor `Matrix::new(rows, cols, data)`: stores the three fields
without any validation of the data length. -/
def Matrix.new {T : Type} (rows cols : Nat) (data : List T) : Matrix T :=
  { rows := rows, cols := cols, data := data }

/-- Possible outcomes of running `multiply`: the `anyhow` dimension-mismatch
error (carrying its message), a panic from out-of-bounds `Vec` indexing, or a
successfully computed matrix. -/
inductive MulOutcome (T : Type) where
  | err : String → MulOutcome T
  | panicked : MulOutcome T
  | ok : Matrix T → MulOutcome T
deriving DecidableEq

/-- The message of the error returned by `multiply` on a dimension mismatch:
`"Cannot multiply matrices with dimensions {a.rows}x{a.cols} and
{b.rows}x{b.cols}"`. -/
def mulErrMsg (ar ac br bc : Nat) : String :=
  "Cannot multiply matrices with dimensions " ++ toString ar ++ "x" ++
    toString ac ++ " and " ++ toString br ++ "x" ++ toString bc

/-- One execution of the innermost statement of `multiply`:
`result[i * b.cols + j] += a.data[i * a.cols + k] * b.data[k * b.cols + j]`.
Each indexing is fallible (`none` = out-of-bounds panic). -/
def mulStep {T : Type} [Mul T] [Add T] (a b : Matrix T) (i j : Nat)
    (res : List T) (k : Nat) : Option (List T) := do
  let x ← a.data[i * a.cols + k]?
  let y ← b.data[k * b.cols + j]?
  let cur ← res[i * b.cols + j]?
  pure (res.set (i * b.cols + j) (cur + x * y))

/-- The triple loop of `multiply`, starting from
`vec![T::default(); a.rows * b.cols]`: `i` outer over `0..a.rows`, `j` middle
over `0..b.cols`, `k` inner over `0..a.cols`. -/
def mulLoop {T : Type} [Mul T] [Add T] [Inhabited T] (a b : Matrix T) :
    Option (List T) :=
  (List.range a.rows).foldlM
    (fun res i =>
      (List.range b.cols).foldlM
        (fun res j => (List.range a.cols).foldlM (mulStep a b i j) res)
        res)
    (List.replicate (a.rows * b.cols) default)

/-- `multiply(a, b)` from `src/matrix.rs`: rejects `a.cols != b.rows` with the
dimension-mismatch error, otherwise runs the triple loop and wraps the buffer
in a matrix of shape `a.rows × b.cols`. -/
def multiply {T : Type} [Mul T] [Add T] [Inhabited T] (a b : Matrix T) :
    MulOutcome T :=
  if a.cols ≠ b.rows then
    MulOutcome.err (mulErrMsg a.rows a.cols b.rows b.cols)
  else
    match mulLoop a b with
    | none => MulOutcome.panicked
    | some res => MulOutcome.ok { rows := a.rows, cols := b.cols, data := res }

/-- A Rust element type's pair of formatters: `disp` models its
`fmt::Display` implementation, `dbg` its `fmt::Debug` implementation. -/
structure FmtType (T : Type) where
  disp : T → String
  dbg : T → String

/-- The inner loop of the matrix `Display` impl, for row `i`: write each
element of the row with the formatter `fd`, followed by a single space for
every element except the last.  Indexing `self.data[i * self.cols + j]` is
fallible. -/
def fmtRowM {T : Type} (fd : T → String) (m : Matrix T) (i : Nat) :
    Option String :=
  (List.range m.cols).foldlM
    (fun acc j => do
      let x ← m.data[i * m.cols + j]?
      pure (acc ++ fd x ++ (if j < m.cols - 1 then " " else "")))
    ""

/-- The outer loop of the matrix `Display` impl: each row wrapped in braces,
followed by a comma and a space for every row except the last.  (The writes
`"{"`, the row, `"}"` are grouped into one append; string append is
associative.) -/
def displayM {T : Type} (fd : T → String) (m : Matrix T) : Option String :=
  (List.range m.rows).foldlM
    (fun acc i => do
      let r ← fmtRowM fd m i
      pure (acc ++ ("\x7b" ++ r ++ "\x7d") ++ (if i < m.rows - 1 then ", " else "")))
    ""

/-- The `fmt::Display` impl for `Matrix<T>` in `src/matrix.rs`: it formats
each element with `write!(f, "{:?}", ...)`, i.e. with the element type's
DEBUG formatter. -/
def matrixDisplay {T : Type} (ft : FmtType T) (m : Matrix T) : Option String :=
  displayM ft.dbg m

/-- Second definition for the refinement claim C4, following the spec's words:
a matrix display that formats each element with the element type's natural
human-readable (Display) representation instead of its debug representation. -/
def matrixDisplaySpec {T : Type} (ft : FmtType T) (m : Matrix T) :
    Option String :=
  displayM ft.disp m

/-- The `fmt::Debug` impl for `Matrix<T>`:
`write!(f, "Matrix(rows={}, cols={}, {})", self.rows, self.cols, self)`, the
last `{}` formatting `self` through the matrix `Display` impl. -/
def debugM {T : Type} (ft : FmtType T) (m : Matrix T) : Option String :=
  (matrixDisplay ft m).map (fun s =>
    "Matrix(rows=" ++ toString m.rows ++ ", cols=" ++ toString m.cols ++
      ", " ++ s ++ ")")

/-- The formatter pair of a Rust primitive integer: `Display` and `Debug`
both print the decimal numeral. -/
def intFmt : FmtType Int :=
  { disp := toString, dbg := toString }

/-- The formatter pair of Rust's `String`/`&str` (restricted to quote-free
alphanumeric content, where no escaping occurs): `Display` prints the content
verbatim, `Debug` wraps it in double quotes. -/
def strFmt : FmtType String :=
  { disp := fun s => s, dbg := fun s => "\"" ++ s ++ "\"" }

/-- Concatenation of a list of strings with a separator between consecutive
entries and no leading or trailing separator. -/
def sepConcat (sep : String) : List String → String
  | [] => ""
  | [s] => s
  | s :: s' :: rest => s ++ sep ++ sepConcat sep (s' :: rest)

/-- The table of rendered elements of a matrix under formatter `fd`: one
inner list per row, one string per element, in row-major order. -/
def renderTable {T : Type} [Inhabited T] (fd : T → String) (m : Matrix T) :
    List (List String) :=
  (List.range m.rows).map (fun i =>
    (List.range m.cols).map (fun j => fd (m.data.getD (i * m.cols + j) default)))

/-- Concatenation of a list of strings, in order. -/
def strCat : List String → String
  | [] => ""
  | s :: rest => s ++ strCat rest

/-- The per-entry accumulation of `multiply` for entry `(i, j)`, starting
from `v`: fold `acc += a[i,k] * b[k,j]` over `k` in `0..a.cols`. -/
def entryAcc {T : Type} [Mul T] [Add T] [Inhabited T] (a b : Matrix T)
    (i j : Nat) (v : T) : T :=
  (List.range a.cols).foldl
    (fun acc k =>
      acc + a.data.getD (i * a.cols + k) default * b.data.getD (k * b.cols + j) default)
    v

/-- The mathematical value of entry `(i, j)` of the product: the sum over
`k < a.cols` of `a[i,k] * b[k,j]`, accumulated from the element type's
default (zero) value by repeated addition, exactly as the claims state. -/
def entrySum {T : Type} [Mul T] [Add T] [Inhabited T] (a b : Matrix T)
    (i j : Nat) : T :=
  entryAcc a b i j default

/-- Panic-free version of `mulStep` (reads through `getD`); it agrees with
`mulStep` on well-sized states. -/
def pureStep {T : Type} [Mul T] [Add T] [Inhabited T] (a b : Matrix T)
    (i j : Nat) (res : List T) (k : Nat) : List T :=
  res.set (i * b.cols + j)
    (res.getD (i * b.cols + j) default +
      a.data.getD (i * a.cols + k) default *
        b.data.getD (k * b.cols + j) default)

/-- Pure version of one full inner `k` loop of `multiply`. -/
def pureInner {T : Type} [Mul T] [Add T] [Inhabited T] (a b : Matrix T)
    (i j : Nat) (res : List T) : List T :=
  (List.range a.cols).foldl (pureStep a b i j) res

/-- Writing the fully accumulated entry `(i, j)` in one step. -/
def entryWrite {T : Type} [Mul T] [Add T] [Inhabited T] (a b : Matrix T)
    (i j : Nat) (res : List T) : List T :=
  res.set (i * b.cols + j)
    (entryAcc a b i j (res.getD (i * b.cols + j) default))

/-- Pure version of one `i`-iteration (the middle `j` loop). -/
def pureRow {T : Type} [Mul T] [Add T] [Inhabited T] (a b : Matrix T)
    (res : List T) (i : Nat) : List T :=
  (List.range b.cols).foldl (fun res j => pureInner a b i j res) res

/-- Pure version of the whole triple loop of `multiply`. -/
def pureLoop {T : Type} [Mul T] [Add T] [Inhabited T] (a b : Matrix T) :
    List T :=
  (List.range a.rows).foldl (pureRow a b)
    (List.replicate (a.rows * b.cols) default)

section FoldLemmas

variable {α : Type} {β : Type}

/-- Folding a fallible step that agrees (on every state satisfying an
invariant) with a pure step computes the pure fold. -/
theorem foldlM_eq_foldl_of_inv (P : β → Prop) (f : β → α → Option β)
    (g : β → α → β) :
    ∀ (l : List α) (acc : β), P acc →
      (∀ acc x, P acc → x ∈ l → f acc x = some (g acc x)) →
      (∀ acc x, P acc → x ∈ l → P (g acc x)) →
      l.foldlM f acc = some (l.foldl g acc) := by
  intro l
  induction l with
  | nil => intro acc _ _ _; rfl
  | cons x l ih =>
    intro acc hP hfg hPg
    rw [List.foldlM_cons, hfg acc x hP (List.mem_cons_self x l)]
    rw [List.foldl_cons]
    show (l.foldlM f (g acc x)) = _
    exact ih (g acc x) (hPg acc x hP (List.mem_cons_self x l))
      (fun a y ha hy => hfg a y ha (List.mem_cons_of_mem x hy))
      (fun a y ha hy => hPg a y ha (List.mem_cons_of_mem x hy))

/-- A pure fold preserves an invariant preserved by each step. -/
theorem foldl_inv (P : β → Prop) (g : β → α → β) :
    ∀ (l : List α) (acc : β), P acc →
      (∀ acc x, P acc → x ∈ l → P (g acc x)) →
      P (l.foldl g acc) := by
  intro l
  induction l with
  | nil => intro acc hP _; exact hP
  | cons x l ih =>
    intro acc hP hPg
    rw [List.foldl_cons]
    exact ih (g acc x) (hPg acc x hP (List.mem_cons_self x l))
      (fun a y ha hy => hPg a y ha (List.mem_cons_of_mem x hy))

/-- Two pure folds agree when their steps agree on every state satisfying an
invariant that the fold maintains. -/
theorem foldl_congr_inv (P : β → Prop) (f g : β → α → β) :
    ∀ (l : List α) (acc : β), P acc →
      (∀ acc x, P acc → x ∈ l → f acc x = g acc x) →
      (∀ acc x, P acc → x ∈ l → P (g acc x)) →
      l.foldl f acc = l.foldl g acc := by
  intro l
  induction l with
  | nil => intro acc _ _ _; rfl
  | cons x l ih =>
    intro acc hP hfg hPg
    rw [List.foldl_cons, List.foldl_cons, hfg acc x hP (List.mem_cons_self x l)]
    exact ih (g acc x) (hPg acc x hP (List.mem_cons_self x l))
      (fun a y ha hy => hfg a y ha (List.mem_cons_of_mem x hy))
      (fun a y ha hy => hPg a y ha (List.mem_cons_of_mem x hy))

/-- A successful fallible fold transports any invariant preserved by each
successful step. -/
theorem foldlM_some_inv (P : β → Prop) (f : β → α → Option β) :
    ∀ (l : List α) (acc acc' : β), l.foldlM f acc = some acc' → P acc →
      (∀ a x a', x ∈ l → f a x = some a' → P a → P a') →
      P acc' := by
  intro l
  induction l with
  | nil =>
    intro acc acc' h hP _
    cases h
    exact hP
  | cons x l ih =>
    intro acc acc' h hP hstep
    rw [List.foldlM_cons] at h
    cases hfx : f acc x with
    | none => rw [hfx] at h; cases h
    | some b =>
      rw [hfx] at h
      exact ih b acc' h (hstep acc x b (List.mem_cons_self x l) hfx hP)
        (fun a y a' hy => hstep a y a' (List.mem_cons_of_mem x hy))

end FoldLemmas

section ListIndexLemmas

variable {α : Type}

/-- In-bounds indexing returns the `getD` value. -/
theorem getElem?_eq_some_getD (l : List α) (i : Nat) (d : α)
    (h : i < l.length) : l[i]? = some (l.getD i d) := by
  rw [List.getElem?_eq_getElem h, List.getD_eq_getElem l d h]

/-- Reading back an in-bounds write. -/
theorem getD_set_self (l : List α) (i : Nat) (v d : α) (h : i < l.length) :
    (l.set i v).getD i d = v := by
  simp [List.getD, List.getElem?_set_eq_of_lt v h]

/-- A write at one index does not change reads at another. -/
theorem getD_set_ne (l : List α) (i j : Nat) (v d : α) (h : i ≠ j) :
    (l.set i v).getD j d = l.getD j d := by
  simp [List.getD, List.getElem?_set_ne h]

/-- Writing back the value already present changes nothing. -/
theorem set_getD_self (l : List α) (i : Nat) (d : α) (h : i < l.length) :
    l.set i (l.getD i d) = l := by
  apply List.ext_getElem?
  intro n
  by_cases hn : n = i
  · subst hn
    rw [List.getElem?_set_eq_of_lt _ h, List.getElem?_eq_getElem h,
      List.getD_eq_getElem l d h]
  · rw [List.getElem?_set_ne (fun he => hn he.symm)]

/-- Every position of a replicated list holds the replicated value. -/
theorem getD_replicate (n : Nat) (x d : α) (i : Nat) (h : i < n) :
    (List.replicate n x).getD i d = x := by
  simp [List.getD, List.getElem?_replicate, h]

end ListIndexLemmas

/-- Row-major flat indices of in-range coordinates are in range. -/
theorem flat_idx_lt {i j r c : Nat} (hi : i < r) (hj : j < c) :
    i * c + j < r * c := by
  have h1 : i * c + j < (i + 1) * c := by
    rw [Nat.succ_mul]
    exact Nat.add_lt_add_left hj _
  exact lt_of_lt_of_le h1 (Nat.mul_le_mul_right c hi)

/-- Row-major flat indexing is injective on in-range coordinates. -/
theorem flat_idx_inj {c i j i' j' : Nat} (hj : j < c) (hj' : j' < c)
    (h : i * c + j = i' * c + j') : i = i' ∧ j = j' := by
  rcases Nat.lt_trichotomy i i' with hlt | heq | hgt
  · exfalso
    have hc : i * c + j < i' * c + j' :=
      calc i * c + j < (i + 1) * c := by
            rw [Nat.succ_mul]; exact Nat.add_lt_add_left hj _
        _ ≤ i' * c := Nat.mul_le_mul_right c hlt
        _ ≤ i' * c + j' := Nat.le_add_right _ _
    omega
  · subst heq
    exact ⟨rfl, by omega⟩
  · exfalso
    have hc : i' * c + j' < i * c + j :=
      calc i' * c + j' < (i' + 1) * c := by
            rw [Nat.succ_mul]; exact Nat.add_lt_add_left hj' _
        _ ≤ i * c := Nat.mul_le_mul_right c hgt
        _ ≤ i * c + j := Nat.le_add_right _ _
    omega

section StringLemmas

variable {α : Type}

/-- Left fold by appending is prefixing the concatenation. -/
theorem foldl_append_eq (f : α → String) :
    ∀ (l : List α) (s : String),
      l.foldl (fun acc x => acc ++ f x) s = s ++ strCat (l.map f) := by
  intro l
  induction l with
  | nil => intro s; simp [strCat]
  | cons x l ih =>
    intro s
    rw [List.foldl_cons, ih (s ++ f x), List.map_cons]
    show _ = s ++ (f x ++ strCat (l.map f))
    rw [String.append_assoc]

/-- Unfolding `sepConcat` on a list with at least two entries. -/
theorem sepConcat_cons_cons (sep s s' : String) (t : List String) :
    sepConcat sep (s :: s' :: t) = s ++ sep ++ sepConcat sep (s' :: t) := rfl

/-- Separated concatenation of a list with a last element appended:
every earlier entry is followed by one separator, the last by none. -/
theorem sepConcat_append_singleton (sep : String) :
    ∀ (l : List String) (last : String),
      sepConcat sep (l ++ [last]) =
        strCat (l.map (fun s => s ++ sep)) ++ last := by
  intro l
  induction l with
  | nil => intro last; simp [sepConcat, strCat]
  | cons s l ih =>
    intro last
    cases l with
    | nil =>
      show sepConcat sep [s, last] = strCat [s ++ sep] ++ last
      show s ++ sep ++ last = (s ++ sep ++ "") ++ last
      rw [String.append_empty]
    | cons s' l' =>
      rw [List.cons_append, List.cons_append, sepConcat_cons_cons,
        ← List.cons_append, ih last]
      exact (String.append_assoc (s ++ sep) _ last).symm

/-- The source's write pattern "item, then separator unless last" over
`0..n`, folded from the empty string, is exactly the separator-interleaved
concatenation of the `n` items. -/
theorem foldl_cond_sep (g : Nat → String) (sep : String) :
    ∀ n : Nat,
      (List.range n).foldl
        (fun acc j => acc ++ g j ++ (if j < n - 1 then sep else "")) "" =
      sepConcat sep ((List.range n).map g) := by
  intro n
  cases n with
  | zero => rfl
  | succ m =>
    rw [show List.range (m + 1) = List.range m ++ [m] from by
      simp [List.range_succ]]
    rw [List.foldl_append]
    have h1 :
        (List.range m).foldl
          (fun acc j => acc ++ g j ++ (if j < m + 1 - 1 then sep else "")) "" =
        (List.range m).foldl (fun acc x => acc ++ (g x ++ sep)) "" := by
      apply List.foldl_ext
      intro a j hj
      rw [if_pos (by simpa using List.mem_range.mp hj), String.append_assoc]
    rw [h1, foldl_append_eq]
    show ("" ++ strCat ((List.range m).map fun j => g j ++ sep)) ++ g m ++
        (if m < m + 1 - 1 then sep else "") = _
    rw [if_neg (by omega), String.append_empty, String.empty_append]
    rw [List.map_append, show List.map g [m] = [g m] from rfl,
      sepConcat_append_singleton, List.map_map]
    rfl

end StringLemmas

section DisplayLemmas

variable {T : Type}

/-- On a well-sized matrix, the row loop of the `Display` impl succeeds and
produces the row's elements separated by single spaces. -/
theorem fmtRowM_eq [Inhabited T] (fd : T → String) (m : Matrix T)
    (h : m.data.length = m.rows * m.cols) (i : Nat) (hi : i < m.rows) :
    fmtRowM fd m i =
      some (sepConcat " "
        ((List.range m.cols).map
          (fun j => fd (m.data.getD (i * m.cols + j) default)))) := by
  unfold fmtRowM
  refine Eq.trans (foldlM_eq_foldl_of_inv (fun _ : String => True) _
      (fun acc j => acc ++ fd (m.data.getD (i * m.cols + j) default) ++
        (if j < m.cols - 1 then " " else ""))
      (List.range m.cols) "" trivial ?_ (fun _ _ _ _ => trivial)) ?_
  · intro acc j _ hj
    have hidx : i * m.cols + j < m.data.length := by
      rw [h]; exact flat_idx_lt hi (List.mem_range.mp hj)
    show (m.data[i * m.cols + j]?).bind _ = _
    rw [getElem?_eq_some_getD m.data (i * m.cols + j) default hidx]
    rfl
  · exact congrArg some (foldl_cond_sep
      (fun j => fd (m.data.getD (i * m.cols + j) default)) " " m.cols)

/-- On a well-sized matrix, the `Display` impl succeeds and produces the
brace-wrapped rows separated by a comma and a space, with the elements of
`renderTable`. -/
theorem displayM_eq [Inhabited T] (fd : T → String) (m : Matrix T)
    (h : m.data.length = m.rows * m.cols) :
    displayM fd m =
      some (sepConcat ", "
        ((renderTable fd m).map
          (fun r => "\x7b" ++ sepConcat " " r ++ "\x7d"))) := by
  unfold displayM
  refine Eq.trans (foldlM_eq_foldl_of_inv (fun _ : String => True) _
      (fun acc i => acc ++
        ("\x7b" ++ sepConcat " "
          ((List.range m.cols).map
            (fun j => fd (m.data.getD (i * m.cols + j) default))) ++ "\x7d") ++
        (if i < m.rows - 1 then ", " else ""))
      (List.range m.rows) "" trivial ?_ (fun _ _ _ _ => trivial)) ?_
  · intro acc i _ hi
    show (fmtRowM fd m i).bind _ = _
    rw [fmtRowM_eq fd m h i (List.mem_range.mp hi)]
    rfl
  · rw [renderTable, List.map_map]
    exact congrArg some (foldl_cond_sep
      (fun i => "\x7b" ++ sepConcat " "
        ((List.range m.cols).map
          (fun j => fd (m.data.getD (i * m.cols + j) default))) ++ "\x7d")
      ", " m.rows)

end DisplayLemmas

/-- A successful execution of the innermost statement of `multiply`
preserves the result buffer's length. -/
theorem mulStep_some_length {T : Type} [Mul T] [Add T] (a b : Matrix T)
    (i j k : Nat) (res res' : List T)
    (h : mulStep a b i j res k = some res') :
    res'.length = res.length := by
  unfold mulStep at h
  rcases Option.bind_eq_some.mp h with ⟨x, hx, h⟩
  rcases Option.bind_eq_some.mp h with ⟨y, hy, h⟩
  rcases Option.bind_eq_some.mp h with ⟨cur, hcur, h⟩
  cases h
  simp

section MultiplyLemmas

variable {T : Type} [Mul T] [Add T] [Inhabited T]

theorem pureStep_length (a b : Matrix T) (i j : Nat) (res : List T) (k : Nat) :
    (pureStep a b i j res k).length = res.length := by
  simp [pureStep]

theorem pureInner_length (a b : Matrix T) (i j : Nat) (res : List T) :
    (pureInner a b i j res).length = res.length :=
  foldl_inv (fun r => r.length = res.length) _ (List.range a.cols) res rfl
    (fun acc k hacc _ => by simp only [pureStep_length]; exact hacc)

theorem entryWrite_length (a b : Matrix T) (i j : Nat) (res : List T) :
    (entryWrite a b i j res).length = res.length := by
  simp [entryWrite]

theorem pureRow_length (a b : Matrix T) (res : List T) (i : Nat) :
    (pureRow a b res i).length = res.length :=
  foldl_inv (fun r => r.length = res.length) _ (List.range b.cols) res rfl
    (fun acc j hacc _ => by simp only [pureInner_length]; exact hacc)

theorem pureLoop_length (a b : Matrix T) :
    (pureLoop a b).length = a.rows * b.cols :=
  foldl_inv (fun r : List T => r.length = a.rows * b.cols) _ (List.range a.rows) _
    (List.length_replicate _ _)
    (fun acc i hacc _ => by simp only [pureRow_length]; exact hacc)

/-- On a well-sized state and in-range loop indices, the fallible inner
statement of `multiply` performs no out-of-bounds access and equals its pure
version. -/
theorem mulStep_eq_pureStep (a b : Matrix T) {i j k : Nat}
    (ha : a.data.length = a.rows * a.cols)
    (hb : b.data.length = b.rows * b.cols) (hcb : a.cols = b.rows)
    (hi : i < a.rows) (hj : j < b.cols) (hk : k < a.cols)
    (res : List T) (hres : res.length = a.rows * b.cols) :
    mulStep a b i j res k = some (pureStep a b i j res k) := by
  have hk' : k < b.rows := by rw [← hcb]; exact hk
  have h1 : i * a.cols + k < a.data.length := by
    rw [ha]; exact flat_idx_lt hi hk
  have h2 : k * b.cols + j < b.data.length := by
    rw [hb]; exact flat_idx_lt hk' hj
  have h3 : i * b.cols + j < res.length := by
    rw [hres]; exact flat_idx_lt hi hj
  unfold mulStep pureStep
  rw [getElem?_eq_some_getD a.data _ default h1,
    getElem?_eq_some_getD b.data _ default h2,
    getElem?_eq_some_getD res _ default h3]
  rfl

/-- The whole fallible triple loop of `multiply` performs no out-of-bounds
access on well-sized inputs: it computes the pure loop. -/
theorem mulLoop_eq_pureLoop (a b : Matrix T)
    (ha : a.data.length = a.rows * a.cols)
    (hb : b.data.length = b.rows * b.cols) (hcb : a.cols = b.rows) :
    mulLoop a b = some (pureLoop a b) := by
  have inner_eq : ∀ {i j : Nat}, i < a.rows → j < b.cols →
      ∀ res : List T, res.length = a.rows * b.cols →
        (List.range a.cols).foldlM (mulStep a b i j) res =
          some (pureInner a b i j res) := by
    intro i j hi hj res hres
    exact foldlM_eq_foldl_of_inv (fun r => r.length = a.rows * b.cols) _
      (pureStep a b i j) (List.range a.cols) res hres
      (fun acc k hacc hk =>
        mulStep_eq_pureStep a b ha hb hcb hi hj (List.mem_range.mp hk) acc hacc)
      (fun acc k hacc _ => by simp only [pureStep_length]; exact hacc)
  have mid_eq : ∀ {i : Nat}, i < a.rows →
      ∀ res : List T, res.length = a.rows * b.cols →
        (List.range b.cols).foldlM
            (fun res j => (List.range a.cols).foldlM (mulStep a b i j) res)
            res =
          some (pureRow a b res i) := by
    intro i hi res hres
    exact foldlM_eq_foldl_of_inv (fun r => r.length = a.rows * b.cols) _
      (fun res j => pureInner a b i j res) (List.range b.cols) res hres
      (fun acc j hacc hj => inner_eq hi (List.mem_range.mp hj) acc hacc)
      (fun acc j hacc _ => by simp only [pureInner_length]; exact hacc)
  unfold mulLoop pureLoop
  exact foldlM_eq_foldl_of_inv (fun r => r.length = a.rows * b.cols) _
    (pureRow a b) (List.range a.rows) _ (List.length_replicate _ _)
    (fun acc i hacc hi => mid_eq (List.mem_range.mp hi) acc hacc)
    (fun acc i hacc _ => by simp only [pureRow_length]; exact hacc)

/-- On well-sized inputs with agreeing inner dimensions, `multiply` returns
the matrix of shape `a.rows × b.cols` holding the pure loop's buffer. -/
theorem multiply_eq_ok (a b : Matrix T)
    (ha : a.data.length = a.rows * a.cols)
    (hb : b.data.length = b.rows * b.cols) (hcb : a.cols = b.rows) :
    multiply a b =
      MulOutcome.ok { rows := a.rows, cols := b.cols, data := pureLoop a b } := by
  unfold multiply
  rw [if_neg (not_not_intro hcb), mulLoop_eq_pureLoop a b ha hb hcb]

/-- The inner `k` loop only rewrites cell `(i, j)`: it accumulates all the
products onto the current cell value. -/
theorem kfold_set (a b : Matrix T) (i j : Nat) :
    ∀ (ks : List Nat) (res : List T), i * b.cols + j < res.length →
      ks.foldl (pureStep a b i j) res =
        res.set (i * b.cols + j)
          (ks.foldl
            (fun acc k =>
              acc + a.data.getD (i * a.cols + k) default *
                b.data.getD (k * b.cols + j) default)
            (res.getD (i * b.cols + j) default)) := by
  intro ks
  induction ks with
  | nil => intro res hlt; exact (set_getD_self res _ default hlt).symm
  | cons k ks ih =>
    intro res hlt
    rw [List.foldl_cons, List.foldl_cons]
    rw [ih (pureStep a b i j res k) (by simp only [pureStep_length]; exact hlt)]
    unfold pureStep
    rw [getD_set_self res _ _ default hlt, List.set_set]

/-- The inner `k` loop is a single write of the accumulated entry. -/
theorem pureInner_eq_entryWrite (a b : Matrix T) (i j : Nat) (res : List T)
    (hlt : i * b.cols + j < res.length) :
    pureInner a b i j res = entryWrite a b i j res := by
  unfold pureInner entryWrite entryAcc
  exact kfold_set a b i j (List.range a.cols) res hlt

/-- Folding entry writes of row `i` over column indices not hitting position
`m` leaves position `m` unchanged. -/
theorem entryWrite_fold_getD_not_mem (a b : Matrix T) (i : Nat) :
    ∀ (js : List Nat) (res : List T) (m : Nat),
      (∀ j ∈ js, m ≠ i * b.cols + j) →
      (js.foldl (fun r j => entryWrite a b i j r) res).getD m default =
        res.getD m default := by
  intro js
  induction js with
  | nil => intro res m _; rfl
  | cons j js ih =>
    intro res m hm
    rw [List.foldl_cons]
    rw [ih (entryWrite a b i j res) m
      (fun j' hj' => hm j' (List.mem_cons_of_mem j hj'))]
    unfold entryWrite
    exact getD_set_ne res _ m _ default
      (Ne.symm (hm j (List.mem_cons_self j js)))

/-- Folding entry writes of row `i` over distinct column indices sets every
written cell to its accumulated value. -/
theorem entryWrite_fold_getD_mem (a b : Matrix T) (i : Nat) :
    ∀ (js : List Nat) (res : List T), js.Nodup →
      (∀ j ∈ js, i * b.cols + j < res.length) →
      ∀ j0 ∈ js,
        (js.foldl (fun r j => entryWrite a b i j r) res).getD
            (i * b.cols + j0) default =
          entryAcc a b i j0 (res.getD (i * b.cols + j0) default) := by
  intro js
  induction js with
  | nil => intro res _ _ j0 h0; cases h0
  | cons j js ih =>
    intro res hnd hbnd j0 h0
    rw [List.foldl_cons]
    rcases List.mem_cons.mp h0 with rfl | h0'
    · have hnotmem : ∀ j' ∈ js, (i * b.cols + j0) ≠ (i * b.cols + j') := by
        intro j' hj' heq
        have hj0j' : j0 = j' := Nat.add_left_cancel heq
        exact (List.nodup_cons.mp hnd).1 (by rw [hj0j']; exact hj')
      rw [entryWrite_fold_getD_not_mem a b i js (entryWrite a b i j0 res) _
        hnotmem]
      unfold entryWrite
      exact getD_set_self res _ _ default
        (hbnd j0 (List.mem_cons_self j0 js))
    · have hne : (i * b.cols + j) ≠ (i * b.cols + j0) := by
        intro heq
        have hjj0 : j = j0 := Nat.add_left_cancel heq
        exact (List.nodup_cons.mp hnd).1 (by rw [hjj0]; exact h0')
      rw [ih (entryWrite a b i j res) (List.nodup_cons.mp hnd).2
        (fun j' hj' => by
          rw [entryWrite_length]
          exact hbnd j' (List.mem_cons_of_mem j hj'))
        j0 h0']
      unfold entryWrite
      rw [getD_set_ne res _ _ _ default hne]

/-- One middle-loop iteration is the row of entry writes, on well-sized
states. -/
theorem pureRow_eq_entryWrites (a b : Matrix T) {i : Nat} (hi : i < a.rows)
    (res : List T) (hres : res.length = a.rows * b.cols) :
    pureRow a b res i =
      (List.range b.cols).foldl (fun r j => entryWrite a b i j r) res := by
  unfold pureRow
  exact foldl_congr_inv (fun r : List T => r.length = a.rows * b.cols) _ _
    (List.range b.cols) res hres
    (fun acc j hacc hj => pureInner_eq_entryWrite a b i j acc
      (hacc.symm ▸ flat_idx_lt hi (List.mem_range.mp hj)))
    (fun acc j hacc _ => by simp only [entryWrite_length]; exact hacc)

/-- The middle loop writes each cell of row `i` with its accumulated
value. -/
theorem pureRow_getD_mem (a b : Matrix T) {i j0 : Nat} (hi : i < a.rows)
    (hj0 : j0 < b.cols) (res : List T)
    (hres : res.length = a.rows * b.cols) :
    (pureRow a b res i).getD (i * b.cols + j0) default =
      entryAcc a b i j0 (res.getD (i * b.cols + j0) default) := by
  rw [pureRow_eq_entryWrites a b hi res hres]
  exact entryWrite_fold_getD_mem a b i (List.range b.cols) res
    (List.nodup_range _)
    (fun j hj => by rw [hres]; exact flat_idx_lt hi (List.mem_range.mp hj))
    j0 (List.mem_range.mpr hj0)

/-- The middle loop of row `i` does not touch positions outside row `i`. -/
theorem pureRow_getD_other (a b : Matrix T) {i : Nat} (hi : i < a.rows)
    (res : List T) (hres : res.length = a.rows * b.cols) (m : Nat)
    (hm : ∀ j, j < b.cols → m ≠ i * b.cols + j) :
    (pureRow a b res i).getD m default = res.getD m default := by
  rw [pureRow_eq_entryWrites a b hi res hres]
  exact entryWrite_fold_getD_not_mem a b i (List.range b.cols) res m
    (fun j hj => hm j (List.mem_range.mp hj))

/-- Folding rows whose cells never hit position `m` leaves position `m`
unchanged. -/
theorem rowfold_getD_not_mem (a b : Matrix T) :
    ∀ (is : List Nat) (res : List T), (∀ i ∈ is, i < a.rows) →
      res.length = a.rows * b.cols →
      ∀ m : Nat, (∀ i ∈ is, ∀ j, j < b.cols → m ≠ i * b.cols + j) →
        (is.foldl (pureRow a b) res).getD m default = res.getD m default := by
  intro is
  induction is with
  | nil => intro res _ _ m _; rfl
  | cons i is ih =>
    intro res hlt hres m hm
    rw [List.foldl_cons]
    rw [ih (pureRow a b res i)
      (fun i' hi' => hlt i' (List.mem_cons_of_mem i hi'))
      (by rw [pureRow_length]; exact hres)
      m (fun i' hi' => hm i' (List.mem_cons_of_mem i hi'))]
    exact pureRow_getD_other a b (hlt i (List.mem_cons_self i is)) res hres m
      (hm i (List.mem_cons_self i is))

/-- Folding the rows over distinct row indices sets every in-range cell to
its accumulated value. -/
theorem rowfold_getD_mem (a b : Matrix T) :
    ∀ (is : List Nat) (res : List T), is.Nodup → (∀ i ∈ is, i < a.rows) →
      res.length = a.rows * b.cols →
      ∀ i0 ∈ is, ∀ j0 : Nat, j0 < b.cols →
        (is.foldl (pureRow a b) res).getD (i0 * b.cols + j0) default =
          entryAcc a b i0 j0 (res.getD (i0 * b.cols + j0) default) := by
  intro is
  induction is with
  | nil => intro res _ _ _ i0 h0; cases h0
  | cons i is ih =>
    intro res hnd hlt hres i0 h0 j0 hj0
    rw [List.foldl_cons]
    rcases List.mem_cons.mp h0 with rfl | h0'
    · have hnm : ∀ i' ∈ is, ∀ j', j' < b.cols →
          (i0 * b.cols + j0) ≠ (i' * b.cols + j') := by
        intro i' hi' j' hj' heq
        have hii' : i0 = i' := (flat_idx_inj hj0 hj' heq).1
        exact (List.nodup_cons.mp hnd).1 (by rw [hii']; exact hi')
      rw [rowfold_getD_not_mem a b is (pureRow a b res i0)
        (fun i' hi' => hlt i' (List.mem_cons_of_mem i0 hi'))
        (by rw [pureRow_length]; exact hres)
        _ hnm]
      exact pureRow_getD_mem a b (hlt i0 (List.mem_cons_self i0 is)) hj0
        res hres
    · have hne : ∀ j, j < b.cols →
          (i0 * b.cols + j0) ≠ (i * b.cols + j) := by
        intro j hj heq
        have hii : i0 = i := (flat_idx_inj hj0 hj heq).1
        exact (List.nodup_cons.mp hnd).1 (by rw [← hii]; exact h0')
      rw [ih (pureRow a b res i) (List.nodup_cons.mp hnd).2
        (fun i' hi' => hlt i' (List.mem_cons_of_mem i hi'))
        (by rw [pureRow_length]; exact hres) i0 h0' j0 hj0]
      rw [pureRow_getD_other a b (hlt i (List.mem_cons_self i is)) res hres
        _ hne]

/-- Every in-range cell of the pure loop's buffer holds the accumulated sum
started from the default value. -/
theorem pureLoop_getD (a b : Matrix T) {i j : Nat} (hi : i < a.rows)
    (hj : j < b.cols) :
    (pureLoop a b).getD (i * b.cols + j) default = entrySum a b i j := by
  unfold pureLoop entrySum
  rw [rowfold_getD_mem a b (List.range a.rows) _ (List.nodup_range _)
    (fun i' hi' => List.mem_range.mp hi')
    (List.length_replicate _ _) i (List.mem_range.mpr hi) j hj]
  rw [getD_replicate _ _ _ _ (flat_idx_lt hi hj)]

/-- Folding a step that returns its state unchanged succeeds with the
initial state. -/
theorem foldlM_some_id {α β : Type} : ∀ (l : List α) (acc : β),
    l.foldlM (fun acc _ => some acc) acc = some acc := by
  intro l
  induction l with
  | nil => intro acc; rfl
  | cons x l ih =>
    intro acc
    rw [List.foldlM_cons]
    exact ih acc

/-- With an empty inner dimension the triple loop runs no inner iteration at
all: `multiply` succeeds and returns the untouched default-filled buffer. -/
theorem multiply_empty_inner (a b : Matrix T) (hac : a.cols = 0)
    (hbr : b.rows = 0) :
    multiply a b =
      MulOutcome.ok
        ⟨a.rows, b.cols, List.replicate (a.rows * b.cols) default⟩ := by
  have h1 : ∀ (res : List T) (i : Nat),
      (List.range b.cols).foldlM
        (fun res j => (List.range a.cols).foldlM (mulStep a b i j) res) res =
        some res := by
    intro res i
    rw [hac]
    simp only [List.range_zero, List.foldlM_nil]
    exact foldlM_some_id _ _
  have hloop : mulLoop a b =
      some (List.replicate (a.rows * b.cols) default) := by
    unfold mulLoop
    rw [show (fun (res : List T) (i : Nat) =>
        (List.range b.cols).foldlM
          (fun res j => (List.range a.cols).foldlM (mulStep a b i j) res)
          res) =
        (fun (res : List T) (_ : Nat) => some res) from
      funext fun res => funext fun i => h1 res i]
    exact foldlM_some_id _ _
  unfold multiply
  rw [if_neg (not_not_intro (by rw [hac, hbr])), hloop]

/-- Whatever the inputs, a successful triple loop yields a buffer of length
`a.rows * b.cols`. -/
theorem mulLoop_some_length (a b : Matrix T) (res : List T)
    (h : mulLoop a b = some res) : res.length = a.rows * b.cols := by
  unfold mulLoop at h
  refine foldlM_some_inv (fun r : List T => r.length = a.rows * b.cols) _
    (List.range a.rows) _ res h (List.length_replicate _ _) ?_
  intro acc i acc' _ hstep hacc
  refine foldlM_some_inv (fun r : List T => r.length = a.rows * b.cols) _
    (List.range b.cols) acc acc' hstep hacc ?_
  intro acc2 j acc2' _ hstep2 hacc2
  refine foldlM_some_inv (fun r : List T => r.length = a.rows * b.cols) _
    (List.range a.cols) acc2 acc2' hstep2 hacc2 ?_
  intro acc3 k acc3' _ hstep3 hacc3
  show acc3'.length = a.rows * b.cols
  rw [mulStep_some_length a b i j k acc3 acc3' hstep3]
  exact hacc3

/-- Any successfully returned product matrix is well-sized. -/
theorem multiply_ok_length (a b c : Matrix T)
    (h : multiply a b = MulOutcome.ok c) :
    c.data.length = a.rows * b.cols := by
  unfold multiply at h
  by_cases hc : a.cols ≠ b.rows
  · rw [if_pos hc] at h; cases h
  · rw [if_neg hc] at h
    cases hml : mulLoop a b with
    | none => rw [hml] at h; cases h
    | some res =>
      rw [hml] at h
      cases h
      exact mulLoop_some_length a b res hml

/-- Any successfully returned product matrix has shape `a.rows × b.cols`. -/
theorem multiply_ok_shape (a b c : Matrix T)
    (h : multiply a b = MulOutcome.ok c) :
    c.rows = a.rows ∧ c.cols = b.cols := by
  unfold multiply at h
  by_cases hc : a.cols ≠ b.rows
  · rw [if_pos hc] at h; cases h
  · rw [if_neg hc] at h
    cases hml : mulLoop a b with
    | none => rw [hml] at h; cases h
    | some res =>
      rw [hml] at h
      cases h
      exact ⟨rfl, rfl⟩

end MultiplyLemmas

/-! Theorems settling the claims. -/

/-- C1: for matrices with agreeing inner dimensions and correctly sized
data, `multiply` succeeds and each element `(i, j)` of the result equals the
sum over `k < a.cols` of `a[i,k] * b[k,j]`, accumulated from the element
type's default (zero) value by in-place addition over row-major flat
indices (`entrySum`); in particular the concrete 2x3 by 3x2 product of the
repository's test succeeds and displays as "\x7b22 28\x7d, \x7b49 64\x7d". -/
theorem c1_multiply_entries :
    (∀ (T : Type) [Mul T] [Add T] [Inhabited T] (a b : Matrix T),
      a.data.length = a.rows * a.cols →
      b.data.length = b.rows * b.cols →
      a.cols = b.rows →
      ∃ c : Matrix T, multiply a b = MulOutcome.ok c ∧
        ∀ i j : Nat, i < a.rows → j < b.cols →
          c.data.getD (i * b.cols + j) default = entrySum a b i j) ∧
    (∃ c : Matrix Int,
      multiply (Matrix.new 2 3 [1, 2, 3, 4, 5, 6])
          (Matrix.new 3 2 [1, 2, 3, 4, 5, 6]) = MulOutcome.ok c ∧
        matrixDisplay intFmt c = some "\x7b22 28\x7d, \x7b49 64\x7d") := by
  constructor
  · intro T _ _ _ a b ha hb hcb
    refine ⟨_, multiply_eq_ok a b ha hb hcb, ?_⟩
    intro i j hi hj
    exact pureLoop_getD a b hi hj
  · exact ⟨Matrix.new 2 2 [22, 28, 49, 64], by decide, by decide⟩

/-- Witness for C1: the general part instantiated at a concrete 2x2 integer
product. -/
theorem c1_multiply_entries_witness :
    ∃ c : Matrix Int,
      multiply (Matrix.new 2 2 [1, 2, 3, 4]) (Matrix.new 2 2 [5, 6, 7, 8]) =
        MulOutcome.ok c ∧
      c.data.getD (0 * 2 + 1) default =
        entrySum (Matrix.new 2 2 [1, 2, 3, 4])
          (Matrix.new 2 2 [5, 6, 7, 8]) 0 1 := by
  obtain ⟨c, hok, hval⟩ := c1_multiply_entries.1 Int
    (Matrix.new 2 2 [1, 2, 3, 4]) (Matrix.new 2 2 [5, 6, 7, 8])
    (by decide) (by decide) (by decide)
  exact ⟨c, hok, hval 0 1 (by decide) (by decide)⟩

/-- C2: `multiply` returns the dimension-mismatch error exactly when
`a.cols != b.rows`; every returned error is that error, carrying all four
dimensions; with agreeing inner dimensions it never returns an error. -/
theorem c2_dimension_check :
    ∀ (T : Type) [Mul T] [Add T] [Inhabited T] (a b : Matrix T),
      (a.cols ≠ b.rows →
        multiply a b =
          MulOutcome.err (mulErrMsg a.rows a.cols b.rows b.cols)) ∧
      (∀ msg : String, multiply a b = MulOutcome.err msg →
        a.cols ≠ b.rows ∧
          msg = mulErrMsg a.rows a.cols b.rows b.cols) := by
  intro T _ _ _ a b
  constructor
  · intro hne
    unfold multiply
    rw [if_pos hne]
  · intro msg h
    unfold multiply at h
    by_cases hc : a.cols ≠ b.rows
    · rw [if_pos hc] at h
      cases h
      exact ⟨hc, rfl⟩
    · rw [if_neg hc] at h
      cases hml : mulLoop a b with
      | none => rw [hml] at h; cases h
      | some res => rw [hml] at h; cases h

/-- Witness for C2: a concrete mismatched pair yields exactly the
dimension-mismatch error. -/
theorem c2_dimension_check_witness :
    (2 : Nat) ≠ 3 ∧
    multiply (Matrix.new 2 2 ([1, 2, 3, 4] : List Int))
        (Matrix.new 3 2 [1, 2, 3, 4, 5, 6]) =
      MulOutcome.err (mulErrMsg 2 2 3 2) :=
  ⟨by decide,
    (c2_dimension_check Int (Matrix.new 2 2 [1, 2, 3, 4])
      (Matrix.new 3 2 [1, 2, 3, 4, 5, 6])).1 (by decide)⟩

/-- C3: on a well-sized matrix the Display rendering is exactly `rows`
brace-delimited groups of exactly `cols` single-space-separated elements,
consecutive groups separated by a comma and a space, with no leading or
trailing separator. -/
theorem c3_display_shape :
    ∀ (T : Type) [Inhabited T] (ft : FmtType T) (m : Matrix T),
      m.data.length = m.rows * m.cols →
      (renderTable ft.dbg m).length = m.rows ∧
      (∀ r ∈ renderTable ft.dbg m, r.length = m.cols) ∧
      matrixDisplay ft m =
        some (sepConcat ", "
          ((renderTable ft.dbg m).map
            (fun r => "\x7b" ++ sepConcat " " r ++ "\x7d"))) := by
  intro T _ ft m h
  refine ⟨?_, ?_, displayM_eq ft.dbg m h⟩
  · simp [renderTable]
  · intro r hr
    rcases List.mem_map.mp hr with ⟨i, _, rfl⟩
    simp

/-- Witness for C3: the repository's display test case, shown through the
theorem. -/
theorem c3_display_shape_witness :
    (Matrix.new 2 3 ([1, 2, 3, 4, 5, 6] : List Int)).data.length =
      (Matrix.new 2 3 ([1, 2, 3, 4, 5, 6] : List Int)).rows *
        (Matrix.new 2 3 ([1, 2, 3, 4, 5, 6] : List Int)).cols ∧
    matrixDisplay intFmt (Matrix.new 2 3 [1, 2, 3, 4, 5, 6]) =
      some "\x7b1 2 3\x7d, \x7b4 5 6\x7d" := by
  have h := c3_display_shape Int intFmt
    (Matrix.new 2 3 [1, 2, 3, 4, 5, 6]) (by decide)
  refine ⟨by decide, ?_⟩
  rw [h.2.2]
  decide

/-- C4 counterexample: the Display rendering does NOT use the element
type's human-readable (Display) representation — on a string element it
renders the quoted debug form, so the source rendering differs from the
spec-modelled rendering at the concrete input `new(1, 1, ["a"])`. -/
theorem c4_display_repr_counterexample :
    matrixDisplay strFmt (Matrix.new 1 1 ["a"]) ≠
      matrixDisplaySpec strFmt (Matrix.new 1 1 ["a"]) := by
  decide

/-- C4 (amended): the Display rendering formats each element using the
element type's DEBUG representation (`write!` with the debug format
specifier), not its human-readable Display representation. -/
theorem c4_display_uses_debug_repr :
    ∀ (T : Type) [Inhabited T] (ft : FmtType T) (m : Matrix T),
      m.data.length = m.rows * m.cols →
      matrixDisplay ft m = displayM ft.dbg m ∧
      matrixDisplay ft m =
        some (sepConcat ", "
          ((renderTable ft.dbg m).map
            (fun r => "\x7b" ++ sepConcat " " r ++ "\x7d"))) := by
  intro T _ ft m h
  exact ⟨rfl, displayM_eq ft.dbg m h⟩

/-- Witness for the amended C4: a string matrix renders with the quoted
debug representation of its element. -/
theorem c4_display_uses_debug_repr_witness :
    (Matrix.new 1 1 ["a"]).data.length =
      (Matrix.new 1 1 ["a"]).rows * (Matrix.new 1 1 ["a"]).cols ∧
    matrixDisplay strFmt (Matrix.new 1 1 ["a"]) = some "\x7b\"a\"\x7d" := by
  have h := c4_display_uses_debug_repr String strFmt
    (Matrix.new 1 1 ["a"]) (by decide)
  refine ⟨by decide, ?_⟩
  rw [h.2]
  decide

/-- C5: the Debug rendering is `Matrix(rows=<r>, cols=<c>, <display>)`,
embedding the Display rendering verbatim (and it fails exactly when the
Display rendering fails). -/
theorem c5_debug_embeds_display :
    ∀ (T : Type) (ft : FmtType T) (m : Matrix T),
      (∀ s : String, matrixDisplay ft m = some s →
        debugM ft m =
          some ("Matrix(rows=" ++ toString m.rows ++ ", cols=" ++
            toString m.cols ++ ", " ++ s ++ ")")) ∧
      (matrixDisplay ft m = none → debugM ft m = none) := by
  intro T ft m
  constructor
  · intro s h
    unfold debugM
    rw [h]
    rfl
  · intro h
    unfold debugM
    rw [h]
    rfl

/-- Witness for C5: the repository's debug test case. -/
theorem c5_debug_embeds_display_witness :
    matrixDisplay intFmt (Matrix.new 2 3 [1, 2, 3, 4, 5, 6]) =
      some "\x7b1 2 3\x7d, \x7b4 5 6\x7d" ∧
    debugM intFmt (Matrix.new 2 3 [1, 2, 3, 4, 5, 6]) =
      some "Matrix(rows=2, cols=3, \x7b1 2 3\x7d, \x7b4 5 6\x7d)" := by
  refine ⟨by decide, ?_⟩
  have h := (c5_debug_embeds_display Int intFmt
    (Matrix.new 2 3 [1, 2, 3, 4, 5, 6])).1
    "\x7b1 2 3\x7d, \x7b4 5 6\x7d" (by decide)
  rw [h]
  decide

/-- C6: whenever `multiply` succeeds, the result has exactly `a.rows` rows
and `b.cols` columns. -/
theorem c6_result_shape :
    ∀ (T : Type) [Mul T] [Add T] [Inhabited T] (a b c : Matrix T),
      multiply a b = MulOutcome.ok c → c.rows = a.rows ∧ c.cols = b.cols := by
  intro T _ _ _ a b c h
  exact multiply_ok_shape a b c h

/-- Witness for C6: the repository's test product has shape 2x2. -/
theorem c6_result_shape_witness :
    multiply (Matrix.new 2 3 ([1, 2, 3, 4, 5, 6] : List Int))
        (Matrix.new 3 2 [1, 2, 3, 4, 5, 6]) =
      MulOutcome.ok (Matrix.new 2 2 [22, 28, 49, 64]) ∧
    (Matrix.new 2 2 ([22, 28, 49, 64] : List Int)).rows = 2 ∧
    (Matrix.new 2 2 ([22, 28, 49, 64] : List Int)).cols = 2 := by
  have hok : multiply (Matrix.new 2 3 ([1, 2, 3, 4, 5, 6] : List Int))
      (Matrix.new 3 2 [1, 2, 3, 4, 5, 6]) =
      MulOutcome.ok (Matrix.new 2 2 [22, 28, 49, 64]) := by decide
  have h := c6_result_shape Int (Matrix.new 2 3 [1, 2, 3, 4, 5, 6])
    (Matrix.new 3 2 [1, 2, 3, 4, 5, 6]) (Matrix.new 2 2 [22, 28, 49, 64]) hok
  exact ⟨hok, h.1, h.2⟩

/-- C7: `new` stores its three arguments verbatim with no validation, so a
correctly sized argument establishes `len(data) = rows * cols`; and every
matrix returned by a successful `multiply` satisfies the invariant, with
data length `a.rows * b.cols`. -/
theorem c7_size_invariant :
    (∀ (T : Type) (rows cols : Nat) (data : List T),
      (Matrix.new rows cols data).rows = rows ∧
      (Matrix.new rows cols data).cols = cols ∧
      (Matrix.new rows cols data).data = data) ∧
    (∀ (T : Type) (rows cols : Nat) (data : List T),
      data.length = rows * cols →
      (Matrix.new rows cols data).data.length =
        (Matrix.new rows cols data).rows * (Matrix.new rows cols data).cols) ∧
    (∀ (T : Type) [Mul T] [Add T] [Inhabited T] (a b c : Matrix T),
      multiply a b = MulOutcome.ok c →
      c.data.length = c.rows * c.cols ∧
        c.data.length = a.rows * b.cols) := by
  refine ⟨fun T rows cols data => ⟨rfl, rfl, rfl⟩,
    fun T rows cols data h => h, ?_⟩
  intro T _ _ _ a b c h
  have hl := multiply_ok_length a b c h
  have hs := multiply_ok_shape a b c h
  exact ⟨by rw [hl, hs.1, hs.2], hl⟩

/-- Witness for C7: the invariant at the repository's test matrices. -/
theorem c7_size_invariant_witness :
    ([1, 2, 3, 4, 5, 6] : List Int).length = 2 * 3 ∧
    (Matrix.new 2 3 ([1, 2, 3, 4, 5, 6] : List Int)).data.length =
      (Matrix.new 2 3 ([1, 2, 3, 4, 5, 6] : List Int)).rows *
        (Matrix.new 2 3 ([1, 2, 3, 4, 5, 6] : List Int)).cols ∧
    (Matrix.new 2 2 ([22, 28, 49, 64] : List Int)).data.length = 2 * 2 := by
  refine ⟨by decide,
    c7_size_invariant.2.1 Int 2 3 [1, 2, 3, 4, 5, 6] (by decide), ?_⟩
  exact (c7_size_invariant.2.2 Int (Matrix.new 2 3 [1, 2, 3, 4, 5, 6])
    (Matrix.new 3 2 [1, 2, 3, 4, 5, 6]) (Matrix.new 2 2 [22, 28, 49, 64])
    (by decide)).1

/-- C8: on correctly sized inputs with agreeing inner dimensions, every
flat index used by the triple loop is in bounds: the loop never hits the
out-of-bounds (panic) branch and `multiply` succeeds. -/
theorem c8_no_out_of_bounds :
    ∀ (T : Type) [Mul T] [Add T] [Inhabited T] (a b : Matrix T),
      a.data.length = a.rows * a.cols →
      b.data.length = b.rows * b.cols →
      a.cols = b.rows →
      mulLoop a b ≠ none ∧
      ∃ c : Matrix T, multiply a b = MulOutcome.ok c := by
  intro T _ _ _ a b ha hb hcb
  refine ⟨?_, ⟨_, multiply_eq_ok a b ha hb hcb⟩⟩
  rw [mulLoop_eq_pureLoop a b ha hb hcb]
  exact Option.some_ne_none _

/-- Witness for C8: the repository's test product runs without any
out-of-bounds access. -/
theorem c8_no_out_of_bounds_witness :
    mulLoop (Matrix.new 2 3 ([1, 2, 3, 4, 5, 6] : List Int))
        (Matrix.new 3 2 [1, 2, 3, 4, 5, 6]) ≠ none ∧
    ∃ c : Matrix Int,
      multiply (Matrix.new 2 3 [1, 2, 3, 4, 5, 6])
        (Matrix.new 3 2 [1, 2, 3, 4, 5, 6]) = MulOutcome.ok c :=
  c8_no_out_of_bounds Int (Matrix.new 2 3 [1, 2, 3, 4, 5, 6])
    (Matrix.new 3 2 [1, 2, 3, 4, 5, 6]) (by decide) (by decide) (by decide)

/-- C9: with both inner dimensions zero (and correctly sized data),
`multiply` succeeds with shape `(a.rows, b.cols)` and every element equal to
the element type's default value, the accumulation ranging over an empty
index set. -/
theorem c9_empty_inner_dim :
    ∀ (T : Type) [Mul T] [Add T] [Inhabited T] (a b : Matrix T),
      a.data.length = a.rows * a.cols →
      b.data.length = b.rows * b.cols →
      a.cols = 0 → b.rows = 0 →
      ∃ c : Matrix T, multiply a b = MulOutcome.ok c ∧
        c.rows = a.rows ∧ c.cols = b.cols ∧
        c.data = List.replicate (a.rows * b.cols) default ∧
        ∀ idx : Nat, idx < a.rows * b.cols →
          c.data.getD idx default = default := by
  intro T _ _ _ a b ha hb hac hbr
  refine ⟨_, multiply_empty_inner a b hac hbr, rfl, rfl, rfl, ?_⟩
  intro idx hidx
  exact getD_replicate _ _ _ _ hidx

/-- Witness for C9: a 3x0 by 0x2 integer product is all zeros (defaults). -/
theorem c9_empty_inner_dim_witness :
    ∃ c : Matrix Int,
      multiply (Matrix.new 3 0 []) (Matrix.new 0 2 []) = MulOutcome.ok c ∧
      c.rows = 3 ∧ c.cols = 2 ∧
      c.data = List.replicate 6 (default : Int) ∧
      c.data.getD 0 default = default := by
  obtain ⟨c, hok, hr, hc, hd, hall⟩ := c9_empty_inner_dim Int
    (Matrix.new 3 0 []) (Matrix.new 0 2 []) (by decide) (by decide) rfl rfl
  exact ⟨c, hok, hr, hc, hd, hall 0 (by decide)⟩

end RustMatrix
